import Mathlib

/-!
Shallow embedding of the wave-function-collapse core of the bevy-wfc
repository (src/wfc/tile_rules.rs and src/wfc/tile_map.rs), together with
theorems settling the specification claims about it.

Modelling conventions:
* Rust `String` tile types are Lean `String`.
* `HashSet<String>` is `Finset String`; `HashMap<K, V>` fields of the rule
  table are functions `K → Option V`.
* The grid `tiles: HashMap<Position, Cell>` is `Position → Option Cell`.
  During generation the map's key set is exactly the in-bounds rectangle
  (established by `init_tiles`), so iteration over the map is modelled as
  iteration over the rectangle positions in row-major order; the random
  tie-break absorbs the unspecified hash-iteration order.
* `rand::thread_rng().gen_range(0..n)` draws are modelled by an explicit
  natural-number oracle reduced modulo `n`; loops take a stream of draws.
* The two unbounded `loop`/`while` constructs are modelled with explicit
  fuel; running out of fuel, and the `unwrap`/`panic!` paths of the source,
  are `none` results.
* `i32` values are `Int`; the `i32::MAX` sentinel used by the entropy
  computation is the literal 2147483647.
-/

namespace Wfc

/-- The four cardinal directions (tile_rules.rs, `Direction`). -/
inductive Direction where
  | North
  | East
  | South
  | West
deriving DecidableEq, Repr

/-- Grid position (tile_map.rs, `Position`); `i32` coordinates become `Int`. -/
structure Position where
  x : Int
  y : Int
deriving DecidableEq, Repr

/-- Per-type directional adjacency sets (tile_rules.rs, `AdjacencyRule`). -/
structure AdjacencyRule where
  north : Finset String
  east : Finset String
  south : Finset String
  west : Finset String
deriving DecidableEq

/-- The rule table (tile_rules.rs, `TileRules`).  The serde `HashMap` fields
are partial lookup functions. -/
structure TileRules where
  tile_types : List String
  adjacency : String → Option AdjacencyRule
  weights : String → Option Int
  indexes : String → Option (List Int)

/-- Cell state (cell.rs / tile_map.rs usage): collapsed to one type, or a
superposition set of still-possible types. -/
inductive Cell where
  | Collapsed (t : String)
  | Superposition (types : Finset String)
deriving DecidableEq

/-- A canonical list of the elements of a `Finset String`, used to model
iteration over a Rust `HashSet` (whose order is unspecified; the random
draws that consume these lists are universally quantified, so the choice
of order is immaterial).  Insertion sort is structurally recursive, so
this evaluates inside the kernel. -/
def sortedOf (s : Finset String) : List String :=
  Quot.liftOn s.val (fun l => l.insertionSort (· ≤ ·)) (fun l₁ l₂ h =>
    List.eq_of_perm_of_sorted
      ((List.perm_insertionSort _ l₁).trans (h.trans (List.perm_insertionSort _ l₂).symm))
      (List.sorted_insertionSort _ l₁) (List.sorted_insertionSort _ l₂))

/-- Modelled from the spec: `Cell::new(&rules.tile_types)` as called from
`TileMap::init_tiles` (the constructor taking the tile-type list is not in
the sources; the spec says every cell is initialized to "full superposition
over exactly `tile_types`"). -/
def Cell.new (tile_types : List String) : Cell :=
  Cell.Superposition tile_types.toFinset

/-- tile_rules.rs, `random_tile_from_set`: each member of the set is
replicated `weight` times (nothing for non-positive weight, `unwrap_or(&0)`
for a missing entry); if the result is empty the hardcoded fallback
`"grass"` is returned, otherwise the draw `r` picks an index. -/
def TileRules.random_tile_from_set (R : TileRules) (set : Finset String) (r : Nat) : String :=
  let tiles := (sortedOf set).flatMap
    (fun t => List.replicate ((R.weights t).getD 0).toNat t)
  if tiles.isEmpty then "grass"
  else tiles.getD (r % tiles.length) "grass"

/-- tile_rules.rs, `valid_neighbour`: looks up the adjacency rule of
`tile_type_b` (`false` when absent) and consults the set selected by
`direction` — the source maps `East` to the `west` set and `West` to the
`east` set while keeping `North ↦ north` and `South ↦ south`. -/
def TileRules.valid_neighbour (R : TileRules) (tile_type_a tile_type_b : String)
    (direction : Direction) : Bool :=
  match R.adjacency tile_type_b with
  | none => false
  | some rules =>
    let set :=
      match direction with
      | Direction.North => rules.north
      | Direction.East => rules.west
      | Direction.South => rules.south
      | Direction.West => rules.east
    decide (tile_type_a ∈ set)

/-- Modelled from the spec (for comparison with the source behaviour):
`valid_neighbour` as §4.1 demands it, consulting the directional set that
corresponds exactly to the given direction, with no axis swapped. -/
def TileRules.valid_neighbour_per_spec (R : TileRules) (tile_type_a tile_type_b : String)
    (direction : Direction) : Bool :=
  match R.adjacency tile_type_b with
  | none => false
  | some rules =>
    let set :=
      match direction with
      | Direction.North => rules.north
      | Direction.East => rules.east
      | Direction.South => rules.south
      | Direction.West => rules.west
    decide (tile_type_a ∈ set)

/-- tile_rules.rs, `get_weight_of_type`: `unwrap_or(&0)`. -/
def TileRules.get_weight_of_type (R : TileRules) (tile_type : String) : Int :=
  (R.weights tile_type).getD 0

/-- tile_map.rs, `Validity`. -/
inductive Validity where
  | Valid
  | Invalid
  | Impossible
deriving DecidableEq, Repr

/-- tile_map.rs, `MapStatus`. -/
inductive MapStatus where
  | Generating
  | Finished
deriving DecidableEq, Repr

/-- tile_map.rs, `TileMap`. -/
structure TileMap where
  width : Int
  height : Int
  tiles : Position → Option Cell
  rules : TileRules

/-- The `new_position` computed at the top of `get_neighbour`
(tile_map.rs): the position offset one step in the direction (`North`
decrements `y`, `South` increments it). -/
def neighbourPos (position : Position) (direction : Direction) : Position :=
  match direction with
  | Direction.North => ⟨position.x, position.y - 1⟩
  | Direction.East => ⟨position.x + 1, position.y⟩
  | Direction.South => ⟨position.x, position.y + 1⟩
  | Direction.West => ⟨position.x - 1, position.y⟩

/-- tile_map.rs, `get_neighbour`: return `None` outside
`[0,width) × [0,height)` or when the map has no entry there. -/
def TileMap.get_neighbour (m : TileMap) (position : Position) (direction : Direction) :
    Option (Position × Cell) :=
  if (neighbourPos position direction).x < 0 ∨ (neighbourPos position direction).y < 0 ∨
      m.width ≤ (neighbourPos position direction).x ∨
      m.height ≤ (neighbourPos position direction).y then
    none
  else
    match m.tiles (neighbourPos position direction) with
    | none => none
    | some cell => some (neighbourPos position direction, cell)

/-- The in-bounds test of the grid rectangle. -/
def TileMap.inRect (m : TileMap) (p : Position) : Prop :=
  0 ≤ p.x ∧ p.x < m.width ∧ 0 ≤ p.y ∧ p.y < m.height

instance (m : TileMap) (p : Position) : Decidable (m.inRect p) := by
  unfold TileMap.inRect
  infer_instance

/-- tile_map.rs, `valid_neighbour` (the `TileMap` method returning a
`Validity` verdict for candidate `a` against the neighbour cell `b`). -/
def TileMap.valid_neighbour (m : TileMap) (a : String) (b : Cell) (direction : Direction) :
    Validity :=
  match b with
  | Cell.Collapsed n_type =>
    if m.rules.valid_neighbour a n_type direction then Validity.Valid else Validity.Impossible
  | Cell.Superposition n_types =>
    if decide (∃ n_type ∈ n_types, m.rules.valid_neighbour a n_type direction = true) then
      Validity.Valid
    else Validity.Invalid

/-- tile_map.rs, `init_tiles`: insert a full-superposition cell at every
position of the `[0,width) × [0,height)` rectangle, keeping any other
entry of the map. -/
def TileMap.init_tiles (m : TileMap) : TileMap :=
  { m with
    tiles := fun p =>
      if 0 ≤ p.x ∧ p.x < m.width ∧ 0 ≤ p.y ∧ p.y < m.height then
        some (Cell.new m.rules.tile_types)
      else m.tiles p }

/-- tile_map.rs, `get_all_neighbours`: the `N, E, S, W` neighbours that
exist, each with its direction. -/
def TileMap.get_all_neighbours (m : TileMap) (position : Position) :
    List (Direction × Position × Cell) :=
  [Direction.North, Direction.East, Direction.South, Direction.West].filterMap
    (fun direction => (m.get_neighbour position direction).map
      (fun pc => (direction, pc.1, pc.2)))

/-- One step of the `fold` inside the `type_filter` closure of
`update_cell` (tile_map.rs): `Impossible` is absorbing, a `Valid` verdict
wins, an `Invalid` verdict keeps the accumulator. -/
def TileMap.validityStep (m : TileMap) (tile_type : String) (acc : Validity)
    (x : Direction × Position × Cell) : Validity :=
  match acc with
  | Validity.Impossible => Validity.Impossible
  | _ =>
    match m.valid_neighbour tile_type x.2.2 x.1 with
    | Validity.Valid => Validity.Valid
    | Validity.Invalid => acc
    | Validity.Impossible => Validity.Impossible

/-- tile_map.rs, the `type_filter` closure of `update_cell`: fold the
neighbour verdicts starting from `Invalid`, and keep the candidate only on
a final `Valid`. -/
def TileMap.type_filter (m : TileMap) (neighbours : List (Direction × Position × Cell))
    (tile_type : String) : Bool :=
  decide (neighbours.foldl (m.validityStep tile_type) Validity.Invalid = Validity.Valid)

/-- `self.tiles.insert(position, cell)`. -/
def TileMap.insertTile (m : TileMap) (position : Position) (cell : Cell) : TileMap :=
  { m with tiles := fun q => if q = position then some cell else m.tiles q }

/-- tile_map.rs, `update_cell`.  `none` models the `unwrap` panic on a
position absent from the map.  An already-collapsed cell is a no-op
reporting no change.  Otherwise the superposition is filtered; the cell is
re-inserted as `Collapsed` when exactly one candidate survives and as the
surviving `Superposition` otherwise, and the neighbour positions are
returned exactly when the number of candidates changed. -/
def TileMap.update_cell (m : TileMap) (position : Position) :
    Option (TileMap × Option (List Position)) :=
  match m.tiles position with
  | none => none
  | some (Cell.Collapsed _) => some (m, none)
  | some (Cell.Superposition types) =>
    let neighbours := m.get_all_neighbours position
    let possible_types := types.filter (fun t => m.type_filter neighbours t = true)
    let newCell :=
      match sortedOf possible_types with
      | [t] => Cell.Collapsed t
      | _ => Cell.Superposition possible_types
    let ret : Option (List Position) :=
      if possible_types.card ≠ types.card then
        some (neighbours.map (fun x => x.2.1))
      else none
    some (m.insertTile position newCell, ret)

/-- The `i32::MAX` sentinel of `calculate_entropy` / `find_lowest_entropy`. -/
def intMax : Int := 2147483647

/-- tile_map.rs, `calculate_entropy`: the sentinel for a set equal to the
whole type universe (compared by size, as the source does), otherwise the
sum of the weights of the members. -/
def TileMap.calculate_entropy (m : TileMap) (types : Finset String) : Int :=
  if types.card = m.rules.tile_types.length then intMax
  else types.sum (fun t => m.rules.get_weight_of_type t)

/-- The positions of the `[0,width) × [0,height)` rectangle in the
`for x in 0..w { for y in 0..h { … } }` order of the source.  After
`init_tiles` these are exactly the keys of the map, so scans of
`self.tiles.iter()` are modelled as scans of this list. -/
def rectPositions (w h : Int) : List Position :=
  (List.range w.toNat).flatMap
    (fun x => (List.range h.toNat).map (fun y => ⟨Nat.cast x, Nat.cast y⟩))

/-- One entry of the scanning loop of `find_lowest_entropy`
(tile_map.rs): a superposition cell replaces the accumulator when its
entropy beats the lowest seen, ties are appended, everything else is
skipped. -/
def TileMap.fleStep (m : TileMap) (acc : List Position × Int) (p : Position) :
    List Position × Int :=
  match m.tiles p with
  | some (Cell.Superposition types) =>
    let entropy := m.calculate_entropy types
    if entropy < acc.2 then ([p], entropy)
    else if entropy = acc.2 then (acc.1 ++ [p], acc.2)
    else acc
  | _ => acc

/-- tile_map.rs, the scanning loop of `find_lowest_entropy`: fold every
cell, collecting the positions realising the lowest entropy seen
(initially `i32::MAX`, so full-universe cells tie with the initial
bound). -/
def TileMap.flePass (m : TileMap) : List Position × Int :=
  (rectPositions m.width m.height).foldl m.fleStep ([], intMax)

/-- tile_map.rs, `find_lowest_entropy`: `None` when no superposition cell
was collected, otherwise a uniformly random element of the minimum-entropy
list, modelled by the draw `r` reduced modulo the list length. -/
def TileMap.find_lowest_entropy (m : TileMap) (r : Nat) : Option Position :=
  if m.flePass.1.isEmpty then none
  else some (m.flePass.1.getD (r % m.flePass.1.length) ⟨0, 0⟩)

/-- tile_map.rs, `collapse_to_random_type`.  The outer `none` models the
panics (`unwrap` on a missing entry, and the explicit panic on an
already-collapsed cell); `some none` is the "nothing left to collapse"
outcome; otherwise the chosen cell is collapsed to a weighted random type
drawn from its candidate set and its position is returned.  `r1` drives the
tie-break draw, `r2` the weighted type draw. -/
def TileMap.collapse_to_random_type (m : TileMap) (r1 r2 : Nat) :
    Option (Option (Position × TileMap)) :=
  match m.find_lowest_entropy r1 with
  | none => some none
  | some position =>
    match m.tiles position with
    | none => none
    | some (Cell.Collapsed _) => none
    | some (Cell.Superposition types) =>
      let type_to_collapse := m.rules.random_tile_from_set types r2
      some (some (position, m.insertTile position (Cell.Collapsed type_to_collapse)))

/-- `true` when a map entry is an empty superposition — the contradiction
state of §7 of the spec ("a cell narrowed to an empty candidate set"). -/
def contradictionCell : Option Cell → Bool
  | some (Cell.Superposition s) => decide (s.card = 0)
  | _ => false

/-- tile_map.rs, the `while !updated_positions.is_empty()` loop of
`update_and_propagate`, with explicit fuel (`none` when the fuel runs out
or `update_cell` hits its panic path).  The FIFO queue pops at the head and
appends reported neighbours at the tail.  The boolean accumulator observes
whether some processed cell was left as an empty superposition (a
contradiction); it does not influence control flow. -/
def TileMap.propagate : Nat → TileMap → List Position → Bool →
    Option (TileMap × Bool)
  | 0, _, _, _ => none
  | _ + 1, m, [], flag => some (m, flag)
  | fuel + 1, m, position :: rest, flag =>
    match m.update_cell position with
    | none => none
    | some (m1, none) =>
      TileMap.propagate fuel m1 rest (flag || contradictionCell (m1.tiles position))
    | some (m1, some positions) =>
      TileMap.propagate fuel m1 (rest ++ positions)
        (flag || contradictionCell (m1.tiles position))

/-- tile_map.rs, `update_and_propagate`: collapse one cell (reporting
`Finished` if none is collapsible), seed the FIFO queue with the collapsed
cell's neighbour positions, and drain it.  The extra `Bool` is the
contradiction observer threaded through `propagate`. -/
def TileMap.update_and_propagate (m : TileMap) (fuel : Nat) (r1 r2 : Nat) :
    Option (MapStatus × TileMap × Bool) :=
  match m.collapse_to_random_type r1 r2 with
  | none => none
  | some none => some (MapStatus.Finished, m, false)
  | some (some (position, m1)) =>
    let updated_positions := (m1.get_all_neighbours position).map (fun x => x.2.1)
    match m1.propagate fuel updated_positions false with
    | none => none
    | some (m2, flag) => some (MapStatus.Generating, m2, flag)

/-- Size of a cell for the propagation measure: the candidate count of a
superposition, `0` otherwise. -/
def cellSize : Option Cell → Nat
  | some (Cell.Superposition s) => s.card
  | _ => 0

/-- The in-bounds rectangle as a `Finset`. -/
def TileMap.rectFinset (m : TileMap) : Finset Position :=
  (rectPositions m.width m.height).toFinset

/-- Total number of remaining candidates over the rectangle; strictly
decreases whenever `update_cell` reports a change. -/
def TileMap.measureM (m : TileMap) : Nat :=
  m.rectFinset.sum (fun p => cellSize (m.tiles p))

/-- `true` on superposition entries. -/
def isSuperCell : Option Cell → Bool
  | some (Cell.Superposition _) => true
  | _ => false

/-- Number of superposition cells in the rectangle; strictly decreases at
every `Generating` step of the outer loop. -/
def TileMap.superCount (m : TileMap) : Nat :=
  (m.rectFinset.filter (fun p => isSuperCell (m.tiles p) = true)).card

/-- `true` when some cell of the grid is still a superposition. -/
def TileMap.hasSuper (m : TileMap) : Bool :=
  (rectPositions m.width m.height).any (fun p => isSuperCell (m.tiles p))

/-- No superposition cell's entropy exceeds the `i32::MAX` sentinel — the
no-overflow side condition under which the `Int` embedding of the entropy
scan agrees with the source's `i32` arithmetic. -/
def TileMap.entropyBounded (m : TileMap) : Bool :=
  (rectPositions m.width m.height).all (fun p =>
    match m.tiles p with
    | some (Cell.Superposition s) => decide (m.calculate_entropy s ≤ intMax)
    | _ => true)

/-- tile_map.rs, the `loop` of `generate`, with explicit fuel for the
number of outer iterations.  Each iteration gives the inner propagation
loop `5 * measureM + 6` steps of fuel — enough, as proved below.  `rng`
supplies the two random draws of iteration `i`; the boolean accumulates
the contradiction observer. -/
def TileMap.genLoop : Nat → TileMap → (Nat → Nat × Nat) → Nat → Bool →
    Option (TileMap × Bool)
  | 0, _, _, _, _ => none
  | fuel + 1, m, rng, i, flag =>
    match m.update_and_propagate (5 * m.measureM + 6) (rng i).1 (rng i).2 with
    | none => none
    | some (MapStatus.Finished, m1, flag1) => some (m1, flag || flag1)
    | some (MapStatus.Generating, m1, flag1) =>
      TileMap.genLoop fuel m1 rng (i + 1) (flag || flag1)

/-- tile_map.rs, `should_remove_sand`: collect the present cells of the
8-connected Moore neighbourhood (`x` outer, `y` inner, skipping `(0,0)`),
and report removal when none of them is collapsed `"grass"`. -/
def TileMap.should_remove_sand (m : TileMap) (position : Position) : Bool :=
  let offsets : List (Int × Int) :=
    [(-1, -1), (-1, 0), (-1, 1), (0, -1), (0, 1), (1, -1), (1, 0), (1, 1)]
  let surrounding_tiles := offsets.filterMap
    (fun o => m.tiles ⟨position.x + o.1, position.y + o.2⟩)
  !(surrounding_tiles.any (fun cell =>
    match cell with
    | Cell.Collapsed tile => tile == "grass"
    | _ => false))

/-- tile_map.rs, `remove_sand_islands`: collect, against the unmodified
map, every cell collapsed to `"sand"` whose Moore neighbourhood shows no
collapsed `"grass"`, then overwrite exactly those entries with collapsed
`"water"`.  Collecting first and inserting second makes the pass a
pointwise function of the original map. -/
def TileMap.remove_sand_islands (m : TileMap) : TileMap :=
  { m with
    tiles := fun p =>
      match m.tiles p with
      | some (Cell.Collapsed tile) =>
        if tile = "sand" ∧ m.should_remove_sand p then some (Cell.Collapsed "water")
        else some (Cell.Collapsed tile)
      | c => c }

/-- tile_map.rs, `generate`: initialize every cell, loop
`update_and_propagate` to `Finished` (the outer fuel `superCount + 1`
suffices, as proved below), then run the sand-island cleanup once. -/
def TileMap.generate (m : TileMap) (rng : Nat → Nat × Nat) : Option (TileMap × Bool) :=
  let m0 := m.init_tiles
  (TileMap.genLoop (m0.superCount + 1) m0 rng 0 false).map
    (fun res => (res.1.remove_sand_islands, res.2))

/-- tile_map.rs, `clear`: re-initialize all cells. -/
def TileMap.clear (m : TileMap) : TileMap :=
  m.init_tiles

/-- Modelled from the spec (§4.6): the clipped-Moore-neighbourhood test —
"inspect its 8-connected Moore neighborhood (clipped at grid edges); if
none of the present neighbors is collapsed to the designated land type".
`true` when no in-bounds Moore neighbour of `p` is collapsed `"grass"`. -/
def moore_no_grass (m : TileMap) (p : Position) : Bool :=
  ([(-1, -1), (-1, 0), (-1, 1), (0, -1), (0, 1), (1, -1), (1, 0), (1, 1)] :
      List (Int × Int)).all
    (fun o =>
      decide ((0 ≤ p.x + o.1 ∧ p.x + o.1 < m.width ∧ 0 ≤ p.y + o.2 ∧ p.y + o.2 < m.height) →
        m.tiles ⟨p.x + o.1, p.y + o.2⟩ ≠ some (Cell.Collapsed "grass")))

/-! ### Concrete fixtures used by counterexamples and witnesses -/

/-- A rule table with a single type `"sand"` that is its own valid
neighbour in every direction, with weight 1. -/
def rulesSand : TileRules where
  tile_types := ["sand"]
  adjacency := fun t =>
    if t = "sand" then some ⟨{"sand"}, {"sand"}, {"sand"}, {"sand"}⟩ else none
  weights := fun t => if t = "sand" then some 1 else none
  indexes := fun _ => none

/-- A fresh (un-generated) 2×1 map over `rulesSand`. -/
def mapW2H1 : TileMap where
  width := 2
  height := 1
  tiles := fun _ => none
  rules := rulesSand

/-- A constant random-draw stream. -/
def rngZero : Nat → Nat × Nat := fun _ => (0, 0)

/-- The 2×1 map over `rulesSand` mid-generation: `(0,0)` collapsed to
`"sand"`, `(1,0)` still the full superposition. -/
def midMap : TileMap where
  width := 2
  height := 1
  tiles := fun p =>
    if 0 ≤ p.x ∧ p.x < 2 ∧ 0 ≤ p.y ∧ p.y < 1 then
      (if p.x = 0 then some (Cell.Collapsed "sand")
       else some (Cell.Superposition {"sand"}))
    else none
  rules := rulesSand

/-- The freshly initialized 2×1 map over `rulesSand`: both cells in full
superposition. -/
def freshMap : TileMap where
  width := 2
  height := 1
  tiles := fun p =>
    if 0 ≤ p.x ∧ p.x < 2 ∧ 0 ≤ p.y ∧ p.y < 1 then some (Cell.Superposition {"sand"})
    else none
  rules := rulesSand

/-- A 2×1 map whose two cells are both collapsed to `"sand"`. -/
def sandMap : TileMap where
  width := 2
  height := 1
  tiles := fun p =>
    if 0 ≤ p.x ∧ p.x < 2 ∧ 0 ≤ p.y ∧ p.y < 1 then some (Cell.Collapsed "sand")
    else none
  rules := rulesSand

/-- A rule table whose lookup maps are all empty. -/
def emptyRules : TileRules where
  tile_types := []
  adjacency := fun _ => none
  weights := fun _ => none
  indexes := fun _ => none

/-- The adjacency rule of the direction-swap counterexample: only the
`east` set is inhabited. -/
def swapRule : AdjacencyRule := ⟨∅, {"a"}, ∅, ∅⟩

/-- Rule table in which `"a"` is allowed in the `east` set of `"b"` and
nowhere else. -/
def swapRules : TileRules where
  tile_types := ["a", "b"]
  adjacency := fun t => if t = "b" then some swapRule else none
  weights := fun _ => none
  indexes := fun _ => none

/-! ### Library lemmas about the embedding -/

theorem mem_sortedOf {s : Finset String} {a : String} : a ∈ sortedOf s ↔ a ∈ s := by
  rcases s with ⟨ms, hnd⟩
  induction ms using Quot.inductionOn
  simp [sortedOf, Finset.mem_def, (List.perm_insertionSort (· ≤ ·) _).mem_iff]

theorem length_sortedOf (s : Finset String) : (sortedOf s).length = s.card := by
  rcases s with ⟨ms, hnd⟩
  induction ms using Quot.inductionOn
  simp [sortedOf, Finset.card, List.length_insertionSort (· ≤ ·) _]

theorem sortedOf_singleton_of (s : Finset String) {t : String}
    (h : sortedOf s = [t]) : s = {t} := by
  have hcard : s.card = 1 := by rw [← length_sortedOf, h]; rfl
  obtain ⟨a, ha⟩ := Finset.card_eq_one.mp hcard
  have : t ∈ s := mem_sortedOf.mp (by rw [h]; exact List.mem_singleton_self t)
  rw [ha] at this ⊢
  rw [Finset.mem_singleton.mp this]

theorem TileMap.eq_of {m₁ m₂ : TileMap} (hw : m₁.width = m₂.width)
    (hh : m₁.height = m₂.height) (ht : m₁.tiles = m₂.tiles) (hr : m₁.rules = m₂.rules) :
    m₁ = m₂ := by
  cases m₁
  cases m₂
  cases hw
  cases hh
  cases ht
  cases hr
  rfl

/-! ### Claim C3 -/

/-- Claim C3: `valid_neighbour(a, b, d)` is claimed to consult the
directional adjacency set of the neighbour type that corresponds exactly
to `d` and to return membership of `a` in that set.  The code instead
swaps the east/west axis: with `adjacency["b"].east = {"a"}` and
`adjacency["b"].west = ∅`, the call for direction `East` returns `false`
although `"a"` is a member of the `east` set (and the call for `West`
returns `true` although `"a"` is not in the `west` set); the spec-faithful
lookup disagrees on both. -/
theorem C3_east_west_swapped :
    swapRules.adjacency "b" = some swapRule ∧
    "a" ∈ swapRule.east ∧
    swapRules.valid_neighbour "a" "b" Direction.East = false ∧
    swapRules.valid_neighbour_per_spec "a" "b" Direction.East = true ∧
    "a" ∉ swapRule.west ∧
    swapRules.valid_neighbour "a" "b" Direction.West = true ∧
    swapRules.valid_neighbour_per_spec "a" "b" Direction.West = false ∧
    swapRules.valid_neighbour "a" "b" Direction.North
      = swapRules.valid_neighbour_per_spec "a" "b" Direction.North := by
  decide

/-! ### Claim C9 -/

/-- Claim C9 counterexample: the claim says a lookup for a type missing
from the adjacency (resp. weights) table aborts the process rather than
returning a value; on the code both lookups are total and return the
documented fallbacks — `false` for `valid_neighbour` and `0` for
`get_weight_of_type`. -/
theorem C9_counterexample :
    emptyRules.adjacency "a" = none ∧
    emptyRules.weights "a" = none ∧
    emptyRules.valid_neighbour "a" "a" Direction.North = false ∧
    emptyRules.get_weight_of_type "a" = 0 := by
  decide

/-- Claim C9 (amended): a `valid_neighbour` query for a neighbour type
with no adjacency entry returns `false`, and a weight lookup for a type
with no weights entry returns `0`; neither operation aborts. -/
theorem C9_missing_entry_defaults (R : TileRules) (a b t : String) (d : Direction)
    (hadj : R.adjacency b = none) (hw : R.weights t = none) :
    R.valid_neighbour a b d = false ∧ R.get_weight_of_type t = 0 := by
  refine ⟨?_, ?_⟩
  · unfold TileRules.valid_neighbour
    rw [hadj]
  · unfold TileRules.get_weight_of_type
    rw [hw]
    rfl

/-- Witness for `C9_missing_entry_defaults` at the all-empty rule table. -/
theorem C9_missing_entry_defaults_witness :
    emptyRules.valid_neighbour "x" "y" Direction.North = false ∧
    emptyRules.get_weight_of_type "z" = 0 :=
  C9_missing_entry_defaults emptyRules "x" "y" "z" Direction.North rfl rfl

/-! ### Claim C10 -/

/-- Claim C10: `random_tile_from_set` is total, and when no member of the
supplied set has a strictly positive weight entry it returns the hardcoded
`"grass"` — hence, whenever `"grass"` is not a member of the set, the
returned type does not belong to the set. -/
theorem C10_fallback_grass (R : TileRules) (s : Finset String) (r : Nat)
    (h : ∀ t ∈ s, R.get_weight_of_type t ≤ 0) :
    R.random_tile_from_set s r = "grass" ∧
    ("grass" ∉ s → R.random_tile_from_set s r ∉ s) := by
  have hlist :
      (sortedOf s).flatMap (fun t => List.replicate ((R.weights t).getD 0).toNat t) = [] := by
    rw [List.flatMap_eq_nil_iff]
    intro t ht
    rw [List.replicate_eq_nil_iff, Int.toNat_eq_zero]
    exact h t (mem_sortedOf.mp ht)
  have hg : R.random_tile_from_set s r = "grass" := by
    unfold TileRules.random_tile_from_set
    rw [hlist]
    rfl
  exact ⟨hg, fun hgs => hg ▸ hgs⟩

/-! ### The candidate filter of `update_cell` -/

theorem foldl_validityStep_impossible (m : TileMap) (t : String)
    (l : List (Direction × Position × Cell)) :
    l.foldl (m.validityStep t) Validity.Impossible = Validity.Impossible := by
  induction l with
  | nil => rfl
  | cons x l ih => simpa [TileMap.validityStep] using ih

theorem foldl_validityStep_valid_iff (m : TileMap) (t : String)
    (l : List (Direction × Position × Cell)) (acc : Validity)
    (hacc : acc ≠ Validity.Impossible) :
    l.foldl (m.validityStep t) acc = Validity.Valid ↔
      ((∀ x ∈ l, m.valid_neighbour t x.2.2 x.1 ≠ Validity.Impossible) ∧
        (acc = Validity.Valid ∨ ∃ x ∈ l, m.valid_neighbour t x.2.2 x.1 = Validity.Valid)) := by
  induction l generalizing acc with
  | nil =>
    simp only [List.foldl_nil, List.not_mem_nil, false_and, exists_false, or_false,
      IsEmpty.forall_iff, implies_true, true_and]
  | cons x l ih =>
    rcases hv : m.valid_neighbour t x.2.2 x.1 with _ | _ | _
    · have hstep : m.validityStep t acc x = Validity.Valid := by
        cases acc <;> simp_all [TileMap.validityStep]
      rw [List.foldl_cons, hstep, ih Validity.Valid (by simp)]
      simp [hv]
    · have hstep : m.validityStep t acc x = acc := by
        cases acc <;> simp_all [TileMap.validityStep]
      rw [List.foldl_cons, hstep, ih acc hacc]
      simp [hv]
    · have hstep : m.validityStep t acc x = Validity.Impossible := by
        cases acc <;> simp [TileMap.validityStep, hv]
      rw [List.foldl_cons, hstep, foldl_validityStep_impossible]
      simp [hv]

theorem type_filter_iff (m : TileMap) (neighbours : List (Direction × Position × Cell))
    (t : String) :
    m.type_filter neighbours t = true ↔
      ((∀ x ∈ neighbours, m.valid_neighbour t x.2.2 x.1 ≠ Validity.Impossible) ∧
        (∃ x ∈ neighbours, m.valid_neighbour t x.2.2 x.1 = Validity.Valid)) := by
  unfold TileMap.type_filter
  rw [decide_eq_true_eq, foldl_validityStep_valid_iff m t neighbours Validity.Invalid (by simp)]
  simp

theorem valid_neighbour_impossible_iff (m : TileMap) (t : String) (c : Cell) (d : Direction) :
    m.valid_neighbour t c d = Validity.Impossible ↔
      ∃ b, c = Cell.Collapsed b ∧ m.rules.valid_neighbour t b d = false := by
  cases c with
  | Collapsed b =>
    cases hb : m.rules.valid_neighbour t b d <;> simp [TileMap.valid_neighbour, hb]
  | Superposition s =>
    simp only [TileMap.valid_neighbour]
    split <;> simp

theorem valid_neighbour_valid_iff (m : TileMap) (t : String) (c : Cell) (d : Direction) :
    m.valid_neighbour t c d = Validity.Valid ↔
      ((∃ b, c = Cell.Collapsed b ∧ m.rules.valid_neighbour t b d = true) ∨
        (∃ s, c = Cell.Superposition s ∧ ∃ b ∈ s, m.rules.valid_neighbour t b d = true)) := by
  cases c with
  | Collapsed b =>
    cases hb : m.rules.valid_neighbour t b d <;> simp [TileMap.valid_neighbour, hb]
  | Superposition s =>
    simp only [TileMap.valid_neighbour]
    split <;> rename_i h <;> simp_all

/-! ### Claim C4 -/

/-- Claim C4: in `update_cell` on a superposition cell, a candidate type
survives the filter (it appears in the stored cell, be it the narrowed
superposition or the collapsed sole survivor) if and only if no neighbour
yields an `Impossible` verdict (a collapsed neighbour incompatible with
the candidate) and at least one neighbour yields a `Valid` verdict (a
compatible collapsed neighbour, or a superposition neighbour containing a
compatible type); in particular all-`Invalid` verdicts exclude it. -/
theorem C4_candidate_survival (m : TileMap) (p : Position) (types : Finset String)
    (h : m.tiles p = some (Cell.Superposition types)) :
    ∃ m1 ret, m.update_cell p = some (m1, ret) ∧
      ∀ t ∈ types,
        (((∃ s, m1.tiles p = some (Cell.Superposition s) ∧ t ∈ s) ∨
            m1.tiles p = some (Cell.Collapsed t)) ↔
          ((∀ x ∈ m.get_all_neighbours p,
              ¬∃ b, x.2.2 = Cell.Collapsed b ∧ m.rules.valid_neighbour t b x.1 = false) ∧
            (∃ x ∈ m.get_all_neighbours p,
              (∃ b, x.2.2 = Cell.Collapsed b ∧ m.rules.valid_neighbour t b x.1 = true) ∨
                (∃ s, x.2.2 = Cell.Superposition s ∧
                  ∃ b ∈ s, m.rules.valid_neighbour t b x.1 = true)))) := by
  unfold TileMap.update_cell
  rw [h]
  refine ⟨_, _, rfl, ?_⟩
  intro t ht
  have hpos : m.type_filter (m.get_all_neighbours p) t = true ↔
      ((∀ x ∈ m.get_all_neighbours p,
          ¬∃ b, x.2.2 = Cell.Collapsed b ∧ m.rules.valid_neighbour t b x.1 = false) ∧
        (∃ x ∈ m.get_all_neighbours p,
          (∃ b, x.2.2 = Cell.Collapsed b ∧ m.rules.valid_neighbour t b x.1 = true) ∨
            (∃ s, x.2.2 = Cell.Superposition s ∧
              ∃ b ∈ s, m.rules.valid_neighbour t b x.1 = true))) := by
    rw [type_filter_iff]
    simp only [Ne, valid_neighbour_impossible_iff, valid_neighbour_valid_iff]
  rw [← hpos]
  set possible := types.filter (fun t => m.type_filter (m.get_all_neighbours p) t = true)
    with hposs
  have hiff : t ∈ possible ↔ m.type_filter (m.get_all_neighbours p) t = true := by
    rw [hposs, Finset.mem_filter]
    exact ⟨fun a => a.2, fun a => ⟨ht, a⟩⟩
  rw [← hiff]
  rcases hs : sortedOf possible with _ | ⟨u, _ | ⟨v, rest⟩⟩
  · have hempty : possible = ∅ := by
      have := length_sortedOf possible
      rw [hs] at this
      exact Finset.card_eq_zero.mp this.symm
    simp [TileMap.insertTile, hs, hempty]
  · have hu : possible = {u} := sortedOf_singleton_of possible hs
    simp [TileMap.insertTile, hs, hu, eq_comm]
  · simp [TileMap.insertTile, hs]

/-- Witness for `C4_candidate_survival` on the mid-generation 2×1 map. -/
theorem C4_candidate_survival_witness :
    ∃ m1 ret, midMap.update_cell ⟨1, 0⟩ = some (m1, ret) ∧
      ∀ t ∈ ({"sand"} : Finset String),
        (((∃ s, m1.tiles ⟨1, 0⟩ = some (Cell.Superposition s) ∧ t ∈ s) ∨
            m1.tiles ⟨1, 0⟩ = some (Cell.Collapsed t)) ↔
          ((∀ x ∈ midMap.get_all_neighbours ⟨1, 0⟩,
              ¬∃ b, x.2.2 = Cell.Collapsed b ∧ midMap.rules.valid_neighbour t b x.1 = false) ∧
            (∃ x ∈ midMap.get_all_neighbours ⟨1, 0⟩,
              (∃ b, x.2.2 = Cell.Collapsed b ∧ midMap.rules.valid_neighbour t b x.1 = true) ∨
                (∃ s, x.2.2 = Cell.Superposition s ∧
                  ∃ b ∈ s, midMap.rules.valid_neighbour t b x.1 = true)))) :=
  C4_candidate_survival midMap ⟨1, 0⟩ {"sand"} (by decide)

/-! ### Claim C5 -/

/-- Claim C5: `update_cell` on a collapsed cell is a no-op reporting no
change; on a superposition cell it stores exactly the surviving
candidates — collapsing to the sole survivor when exactly one remains —
touches no other cell, and returns the neighbour positions if and only if
the surviving set is strictly smaller than the input set. -/
theorem C5_update_cell_contract (m : TileMap) (p : Position) :
    (∀ t, m.tiles p = some (Cell.Collapsed t) → m.update_cell p = some (m, none)) ∧
    (∀ types, m.tiles p = some (Cell.Superposition types) →
      ∃ m1 ret, m.update_cell p = some (m1, ret) ∧
        m1.width = m.width ∧ m1.height = m.height ∧ m1.rules = m.rules ∧
        (∀ q, q ≠ p → m1.tiles q = m.tiles q) ∧
        ∃ possible : Finset String,
          possible = types.filter (fun t => m.type_filter (m.get_all_neighbours p) t = true) ∧
          possible ⊆ types ∧
          (possible.card = 1 → ∃ t, possible = {t} ∧ m1.tiles p = some (Cell.Collapsed t)) ∧
          (possible.card ≠ 1 → m1.tiles p = some (Cell.Superposition possible)) ∧
          (ret = none ↔ possible = types) ∧
          (ret.isSome = true ↔ possible ⊂ types) ∧
          (∀ l, ret = some l → l = (m.get_all_neighbours p).map (fun x => x.2.1))) := by
  constructor
  · intro t ht
    unfold TileMap.update_cell
    rw [ht]
  · intro types ht
    unfold TileMap.update_cell
    rw [ht]
    refine ⟨_, _, rfl, rfl, rfl, rfl, ?_, ?_⟩
    · intro q hq
      simp [TileMap.insertTile, hq]
    set possible := types.filter (fun t => m.type_filter (m.get_all_neighbours p) t = true)
      with hposs
    have hsub : possible ⊆ types := Finset.filter_subset _ _
    refine ⟨possible, rfl, hsub, ?_, ?_, ?_, ?_, ?_⟩
    · intro hc
      have hlen : (sortedOf possible).length = 1 := by rw [length_sortedOf]; exact hc
      obtain ⟨t, hts⟩ := List.length_eq_one.mp hlen
      exact ⟨t, sortedOf_singleton_of possible hts, by simp [TileMap.insertTile, hts]⟩
    · intro hc
      rcases hs : sortedOf possible with _ | ⟨u, _ | ⟨v, rest⟩⟩
      · simp [TileMap.insertTile, hs]
      · have : possible.card = 1 := by rw [← length_sortedOf, hs]; rfl
        exact absurd this hc
      · simp [TileMap.insertTile, hs]
    · by_cases hcc : possible.card = types.card
      · have heq : possible = types := Finset.eq_of_subset_of_card_le hsub (le_of_eq hcc.symm)
        simp [hcc, heq]
      · have hne : possible ≠ types := fun heq => hcc (by rw [heq])
        simp [hcc, hne]
    · by_cases hcc : possible.card = types.card
      · have heq : possible = types := Finset.eq_of_subset_of_card_le hsub (le_of_eq hcc.symm)
        simp only [hcc, ne_eq, not_true_eq_false, if_false, Option.isSome_none,
          Bool.false_eq_true, false_iff, heq]
        exact fun h => absurd rfl (Finset.ssubset_iff_subset_ne.mp h).2
      · have hss : possible ⊂ types :=
          Finset.ssubset_iff_subset_ne.mpr ⟨hsub, fun heq => hcc (by rw [heq])⟩
        simp [hcc, hss]
    · intro l hl
      by_cases hcc : possible.card = types.card
      · simp [hcc] at hl
      · simp [hcc] at hl
        exact hl.symm

/-- Witness for `C5_update_cell_contract`: the already-collapsed cell of
the mid-generation 2×1 map is a no-op reporting no change. -/
theorem C5_update_cell_contract_witness :
    midMap.update_cell ⟨0, 0⟩ = some (midMap, none) :=
  (C5_update_cell_contract midMap ⟨0, 0⟩).1 "sand" (by decide)

/-! ### Claim C1 -/

/-- Claim C1 (amended, the provable local guarantee): whenever the
`update_cell` filter keeps a candidate `t` for the cell at `p`, `t` is a
valid neighbour, in the code's own directional convention, of every
collapsed neighbour of `p`. -/
theorem C1_filter_local_validity (m : TileMap) (p : Position) (t : String)
    (x : Direction × Position × Cell) (b : String)
    (hf : m.type_filter (m.get_all_neighbours p) t = true)
    (hx : x ∈ m.get_all_neighbours p) (hb : x.2.2 = Cell.Collapsed b) :
    m.rules.valid_neighbour t b x.1 = true := by
  have h1 := ((type_filter_iff m _ t).mp hf).1 x hx
  by_contra hc
  have hfalse : m.rules.valid_neighbour t b x.1 = false := by
    cases hv : m.rules.valid_neighbour t b x.1
    · rfl
    · exact absurd hv hc
  exact h1 ((valid_neighbour_impossible_iff m t x.2.2 x.1).mpr ⟨b, hb, hfalse⟩)

/-- Witness for `C1_filter_local_validity` on the mid-generation 2×1 map:
the surviving candidate `"sand"` at `(1,0)` is valid against the collapsed
`"sand"` to its west. -/
theorem C1_filter_local_validity_witness :
    rulesSand.valid_neighbour "sand" "sand" Direction.West = true :=
  C1_filter_local_validity midMap ⟨1, 0⟩ "sand"
    (Direction.West, ⟨0, 0⟩, Cell.Collapsed "sand") "sand" (by decide) (by decide) rfl

/-- Claim C1 counterexample: on the 2×1 grid over the sand-only rule set,
`generate` (with the constant random stream) completes with no
contradiction ever observed (flag `false`), yet leaves two adjacent
collapsed cells — `"water"` at `(0,0)` and `"water"` at its east
neighbour `(1,0)` — for which `valid_neighbour("water", "water", East)`
is `false`: the final sand-island pass rewrote both `"sand"` cells
without re-checking adjacency. -/
theorem C1_counterexample :
    (TileMap.generate mapW2H1 rngZero).map
        (fun res => (res.1.tiles ⟨0, 0⟩, res.1.get_neighbour ⟨0, 0⟩ Direction.East, res.2))
      = some (some (Cell.Collapsed "water"), some (⟨1, 0⟩, Cell.Collapsed "water"), false) ∧
    rulesSand.valid_neighbour "water" "water" Direction.East = false := by
  decide

/-! ### Claim C8 -/

/-- Claim C8: after `clear()` every in-bounds position holds a
superposition over exactly the rule table's `tile_types`, the rules (and
dimensions) are untouched, and `clear` is idempotent. -/
theorem C8_clear_contract (m : TileMap) (p : Position)
    (hp : 0 ≤ p.x ∧ p.x < m.width ∧ 0 ≤ p.y ∧ p.y < m.height) :
    m.clear.tiles p = some (Cell.Superposition m.rules.tile_types.toFinset) ∧
    m.clear.rules = m.rules ∧ m.clear.width = m.width ∧ m.clear.height = m.height ∧
    m.clear.clear = m.clear := by
  refine ⟨?_, rfl, rfl, rfl, ?_⟩
  · simp [TileMap.clear, TileMap.init_tiles, hp, Cell.new]
  · refine TileMap.eq_of rfl rfl ?_ rfl
    funext q
    show (m.init_tiles.init_tiles).tiles q = m.init_tiles.tiles q
    by_cases hq : 0 ≤ q.x ∧ q.x < m.width ∧ 0 ≤ q.y ∧ q.y < m.height
    · simp [TileMap.init_tiles, hq]
    · simp [TileMap.init_tiles, hq]

/-- Witness for `C8_clear_contract` at the concrete 2×1 map. -/
theorem C8_clear_contract_witness :
    mapW2H1.clear.tiles ⟨0, 0⟩
        = some (Cell.Superposition mapW2H1.rules.tile_types.toFinset) ∧
    mapW2H1.clear.rules = mapW2H1.rules ∧ mapW2H1.clear.width = mapW2H1.width ∧
    mapW2H1.clear.height = mapW2H1.height ∧ mapW2H1.clear.clear = mapW2H1.clear :=
  C8_clear_contract mapW2H1 ⟨0, 0⟩ (by decide)

/-! ### Claim C7 -/

theorem should_remove_sand_iff (m : TileMap) (p : Position) :
    m.should_remove_sand p = true ↔
      ∀ o ∈ ([(-1, -1), (-1, 0), (-1, 1), (0, -1), (0, 1), (1, -1), (1, 0), (1, 1)] :
          List (Int × Int)),
        m.tiles ⟨p.x + o.1, p.y + o.2⟩ ≠ some (Cell.Collapsed "grass") := by
  have hg : ∀ c : Cell,
      (match c with
        | Cell.Collapsed tile => tile == "grass"
        | _ => false) = true ↔ c = Cell.Collapsed "grass" := by
    intro c
    cases c <;> simp
  unfold TileMap.should_remove_sand
  simp only [Bool.not_eq_true', List.any_eq_false, List.mem_filterMap, hg]
  constructor
  · intro hall o ho hgr
    exact hall (Cell.Collapsed "grass") ⟨o, ho, hgr⟩ rfl
  · rintro hall c ⟨o, ho, hoc⟩ hc
    exact hall o ho (hc ▸ hoc)

theorem moore_no_grass_iff (m : TileMap) (p : Position) :
    moore_no_grass m p = true ↔
      ∀ o ∈ ([(-1, -1), (-1, 0), (-1, 1), (0, -1), (0, 1), (1, -1), (1, 0), (1, 1)] :
          List (Int × Int)),
        (0 ≤ p.x + o.1 ∧ p.x + o.1 < m.width ∧ 0 ≤ p.y + o.2 ∧ p.y + o.2 < m.height) →
          m.tiles ⟨p.x + o.1, p.y + o.2⟩ ≠ some (Cell.Collapsed "grass") := by
  unfold moore_no_grass
  simp only [List.all_eq_true, decide_eq_true_eq]

theorem should_remove_eq_moore (m : TileMap) (p : Position)
    (hOOB : ∀ q : Position, ¬(0 ≤ q.x ∧ q.x < m.width ∧ 0 ≤ q.y ∧ q.y < m.height) →
      m.tiles q = none) :
    m.should_remove_sand p = moore_no_grass m p := by
  cases hmo : moore_no_grass m p
  · rw [Bool.eq_false_iff] at hmo ⊢
    intro hsr
    apply hmo
    rw [moore_no_grass_iff]
    intro o ho _
    exact (should_remove_sand_iff m p).mp hsr o ho
  · rw [should_remove_sand_iff]
    intro o ho
    by_cases hb :
        0 ≤ p.x + o.1 ∧ p.x + o.1 < m.width ∧ 0 ≤ p.y + o.2 ∧ p.y + o.2 < m.height
    · exact (moore_no_grass_iff m p).mp hmo o ho hb
    · rw [hOOB ⟨p.x + o.1, p.y + o.2⟩ hb]
      exact fun h => Option.noConfusion h

/-- Claim C7: the post-processing pass converts to `"water"` exactly the
cells that are collapsed `"sand"` and have no collapsed `"grass"` in their
clipped Moore neighbourhood (judged against the map as it was before the
pass), leaves every other entry unchanged, and touches nothing else
(dimensions and rules included); it runs once, with no re-propagation.
The clipped reading requires the map to have no out-of-bounds entries,
which is how `generate` leaves it. -/
theorem C7_sand_island_pass (m : TileMap) (p : Position)
    (hOOB : ∀ q : Position, ¬(0 ≤ q.x ∧ q.x < m.width ∧ 0 ≤ q.y ∧ q.y < m.height) →
      m.tiles q = none) :
    (m.remove_sand_islands.width = m.width ∧ m.remove_sand_islands.height = m.height ∧
      m.remove_sand_islands.rules = m.rules) ∧
    ((m.tiles p = some (Cell.Collapsed "sand") ∧ moore_no_grass m p = true) →
      m.remove_sand_islands.tiles p = some (Cell.Collapsed "water")) ∧
    (¬(m.tiles p = some (Cell.Collapsed "sand") ∧ moore_no_grass m p = true) →
      m.remove_sand_islands.tiles p = m.tiles p) := by
  have hbr := should_remove_eq_moore m p hOOB
  refine ⟨⟨rfl, rfl, rfl⟩, ?_, ?_⟩
  · rintro ⟨hsand, hmoore⟩
    show (match m.tiles p with
      | some (Cell.Collapsed tile) =>
        if tile = "sand" ∧ m.should_remove_sand p then some (Cell.Collapsed "water")
        else some (Cell.Collapsed tile)
      | c => c) = some (Cell.Collapsed "water")
    rw [hsand]
    have : ("sand" : String) = "sand" ∧ m.should_remove_sand p = true := by
      rw [hbr]
      exact ⟨rfl, hmoore⟩
    simp [this.2]
  · intro hneg
    show (match m.tiles p with
      | some (Cell.Collapsed tile) =>
        if tile = "sand" ∧ m.should_remove_sand p then some (Cell.Collapsed "water")
        else some (Cell.Collapsed tile)
      | c => c) = m.tiles p
    rcases hmp : m.tiles p with _ | c
    · rfl
    rcases c with tile | s
    · by_cases hcond : tile = "sand" ∧ m.should_remove_sand p = true
      · exact absurd ⟨hcond.1 ▸ hmp, hbr ▸ hcond.2⟩ hneg
      · have : ¬(tile = "sand" ∧ (m.should_remove_sand p : Prop)) := fun h =>
          hcond ⟨h.1, h.2⟩
        simp [this]
    · rfl

/-- Witness for `C7_sand_island_pass`: on the all-sand 2×1 map, the cell
at `(0,0)` (whose sole Moore neighbour is sand, not grass) becomes
`"water"`. -/
theorem C7_sand_island_pass_witness :
    sandMap.remove_sand_islands.tiles ⟨0, 0⟩ = some (Cell.Collapsed "water") :=
  (C7_sand_island_pass sandMap ⟨0, 0⟩ (fun _ hq => if_neg hq)).2.1 ⟨by decide, by decide⟩

/-- Witness for `C10_fallback_grass`: a set not containing `"grass"` whose
sole member has no weight entry; the draw returns `"grass"`, which is not
in the set. -/
theorem C10_fallback_grass_witness :
    emptyRules.random_tile_from_set {"water"} 0 = "grass" ∧
    ("grass" ∉ ({"water"} : Finset String) →
      emptyRules.random_tile_from_set {"water"} 0 ∉ ({"water"} : Finset String)) :=
  C10_fallback_grass emptyRules {"water"} 0 (by decide)

/-! ### Termination infrastructure -/

theorem mem_rectPositions {w h : Int} {p : Position} :
    p ∈ rectPositions w h ↔ 0 ≤ p.x ∧ p.x < w ∧ 0 ≤ p.y ∧ p.y < h := by
  unfold rectPositions
  constructor
  · intro hp
    obtain ⟨x, hx, hmem⟩ := List.mem_flatMap.mp hp
    obtain ⟨y, hy, heq⟩ := List.mem_map.mp hmem
    rw [List.mem_range] at hx
    rw [List.mem_range] at hy
    have hxx : (Nat.cast x : Int) = p.x := congrArg Position.x heq
    have hyy : (Nat.cast y : Int) = p.y := congrArg Position.y heq
    omega
  · intro hcond
    refine List.mem_flatMap.mpr
      ⟨p.x.toNat, List.mem_range.mpr (by omega), List.mem_map.mpr
        ⟨p.y.toNat, List.mem_range.mpr (by omega), ?_⟩⟩
    have h1 : (Nat.cast p.x.toNat : Int) = p.x := by omega
    have h2 : (Nat.cast p.y.toNat : Int) = p.y := by omega
    rw [h1, h2]

theorem mem_rectFinset {m : TileMap} {q : Position} : q ∈ m.rectFinset ↔ m.inRect q := by
  unfold TileMap.rectFinset TileMap.inRect
  rw [List.mem_toFinset, mem_rectPositions]

theorem get_neighbour_some {m : TileMap} {p : Position} {d : Direction} {q : Position} {c : Cell}
    (h : m.get_neighbour p d = some (q, c)) : m.inRect q ∧ m.tiles q = some c := by
  unfold TileMap.get_neighbour at h
  split at h
  · exact absurd h (by simp)
  · rename_i hbounds
    rcases ht : m.tiles (neighbourPos p d) with _ | cell
    · rw [ht] at h
      exact absurd h (by simp)
    · rw [ht] at h
      injection h with h'
      injection h' with h1 h2
      subst h1
      subst h2
      refine ⟨?_, ht⟩
      unfold TileMap.inRect
      push_neg at hbounds
      omega

theorem get_all_neighbours_mem {m : TileMap} {p : Position}
    {x : Direction × Position × Cell} (hx : x ∈ m.get_all_neighbours p) :
    m.inRect x.2.1 ∧ m.tiles x.2.1 = some x.2.2 := by
  unfold TileMap.get_all_neighbours at hx
  simp only [List.mem_filterMap, Option.map_eq_some'] at hx
  obtain ⟨d, _, ⟨q, c⟩, hqc, rfl⟩ := hx
  exact get_neighbour_some hqc

theorem length_get_all_neighbours_le (m : TileMap) (p : Position) :
    (m.get_all_neighbours p).length ≤ 4 := by
  unfold TileMap.get_all_neighbours
  exact le_trans (List.length_filterMap_le _ _) (by simp)

theorem update_cell_eq_of_collapsed {m : TileMap} {p : Position} {t : String}
    (h : m.tiles p = some (Cell.Collapsed t)) : m.update_cell p = some (m, none) := by
  unfold TileMap.update_cell
  rw [h]

theorem update_cell_step {m : TileMap} {p : Position} {m1 : TileMap}
    {ret : Option (List Position)} (h : m.update_cell p = some (m1, ret)) :
    m1.width = m.width ∧ m1.height = m.height ∧ m1.rules = m.rules ∧
    (∀ q, q ≠ p → m1.tiles q = m.tiles q) ∧
    cellSize (m1.tiles p) ≤ cellSize (m.tiles p) ∧
    (ret.isSome = true → cellSize (m1.tiles p) < cellSize (m.tiles p)) ∧
    (isSuperCell (m1.tiles p) = true → isSuperCell (m.tiles p) = true) ∧
    (m1.tiles p).isSome = true ∧
    (∀ l, ret = some l → l.length ≤ 4 ∧ ∀ q ∈ l, m.inRect q) := by
  unfold TileMap.update_cell at h
  rcases hm : m.tiles p with _ | c
  · rw [hm] at h
    exact absurd h (by simp)
  rcases c with t | types
  · rw [hm] at h
    injection h with h'
    injection h' with h1 h2
    subst h1
    subst h2
    refine ⟨rfl, rfl, rfl, fun q _ => rfl, ?_, by simp, ?_, ?_, fun l hl => absurd hl (by simp)⟩
    · rw [hm]
    · intro hs
      rw [hm] at hs
      exact absurd hs (by simp [isSuperCell])
    · rw [hm]
      rfl
  · rw [hm] at h
    injection h with h'
    injection h' with h1 h2
    subst h1
    subst h2
    have hat : ∀ c', (m.insertTile p c').tiles p = some c' := by
      intro c'
      simp [TileMap.insertTile]
    set possible := types.filter (fun t => m.type_filter (m.get_all_neighbours p) t = true)
      with hposs
    have hsub : possible.card ≤ types.card := Finset.card_filter_le _ _
    have hsize : cellSize ((m.insertTile p
        (match sortedOf possible with
          | [t] => Cell.Collapsed t
          | _ => Cell.Superposition possible)).tiles p) ≤ possible.card := by
      rcases hs : sortedOf possible with _ | ⟨u, _ | ⟨v, rest⟩⟩ <;>
        simp [hat, hs, cellSize]
    refine ⟨rfl, rfl, rfl, ?_, ?_, ?_, ?_, ?_, ?_⟩
    · intro q hq
      simp [TileMap.insertTile, hq]
    · exact le_trans hsize hsub
    · intro hrs
      have hne : possible.card ≠ types.card := by
        by_contra hcc
        rw [if_neg (by simpa using hcc)] at hrs
        simp at hrs
      have : possible.card < types.card := lt_of_le_of_ne hsub hne
      exact lt_of_le_of_lt hsize this
    · intro _
      rfl
    · rcases hs : sortedOf possible with _ | ⟨u, _ | ⟨v, rest⟩⟩ <;> simp [hat, hs]
    · intro l hl
      have hll : l = (m.get_all_neighbours p).map (fun x => x.2.1) := by
        by_cases hcc : possible.card ≠ types.card
        · rw [if_pos hcc] at hl
          injection hl with hl'
          exact hl'.symm
        · rw [if_neg hcc] at hl
          exact absurd hl (by simp)
      constructor
      · rw [hll, List.length_map]
        exact length_get_all_neighbours_le m p
      · intro q hq
        rw [hll] at hq
        obtain ⟨x, hx, rfl⟩ := List.mem_map.mp hq
        exact (get_all_neighbours_mem hx).1

theorem measureM_le_of_pointwise {m1 m : TileMap} (hw : m1.width = m.width)
    (hh : m1.height = m.height)
    (hle : ∀ q, m.inRect q → cellSize (m1.tiles q) ≤ cellSize (m.tiles q)) :
    m1.measureM ≤ m.measureM := by
  unfold TileMap.measureM
  have hrect : m1.rectFinset = m.rectFinset := by
    unfold TileMap.rectFinset
    rw [hw, hh]
  rw [hrect]
  exact Finset.sum_le_sum (fun q hq => hle q (mem_rectFinset.mp hq))

theorem measureM_lt_of_pointwise {m1 m : TileMap} (hw : m1.width = m.width)
    (hh : m1.height = m.height)
    (hle : ∀ q, m.inRect q → cellSize (m1.tiles q) ≤ cellSize (m.tiles q))
    (p : Position) (hp : m.inRect p)
    (hlt : cellSize (m1.tiles p) < cellSize (m.tiles p)) :
    m1.measureM < m.measureM := by
  unfold TileMap.measureM
  have hrect : m1.rectFinset = m.rectFinset := by
    unfold TileMap.rectFinset
    rw [hw, hh]
  rw [hrect]
  exact Finset.sum_lt_sum (fun q hq => hle q (mem_rectFinset.mp hq))
    ⟨p, mem_rectFinset.mpr hp, hlt⟩

theorem update_cell_isSome {m : TileMap} {p : Position} (h : (m.tiles p).isSome = true) :
    ∃ z, m.update_cell p = some z := by
  unfold TileMap.update_cell
  rcases hm : m.tiles p with _ | c
  · rw [hm] at h
    exact absurd h (by simp)
  · rcases c with t | types
    · exact ⟨_, rfl⟩
    · exact ⟨_, rfl⟩

theorem superCount_le_of_pointwise {m1 m : TileMap} (hw : m1.width = m.width)
    (hh : m1.height = m.height)
    (himp : ∀ q, m.inRect q → isSuperCell (m1.tiles q) = true → isSuperCell (m.tiles q) = true) :
    m1.superCount ≤ m.superCount := by
  unfold TileMap.superCount
  have hrect : m1.rectFinset = m.rectFinset := by
    unfold TileMap.rectFinset
    rw [hw, hh]
  rw [hrect]
  refine Finset.card_le_card ?_
  intro q hq
  rw [Finset.mem_filter] at hq ⊢
  exact ⟨hq.1, himp q (mem_rectFinset.mp hq.1) hq.2⟩

theorem update_cell_measures {m : TileMap} {p : Position} {m1 : TileMap}
    {ret : Option (List Position)} (h : m.update_cell p = some (m1, ret))
    (hp : m.inRect p) :
    m1.measureM ≤ m.measureM ∧ (ret.isSome = true → m1.measureM < m.measureM) ∧
      m1.superCount ≤ m.superCount := by
  obtain ⟨hw, hh, _, hframe, hle, hlt, hsup, _, _⟩ := update_cell_step h
  have hptle : ∀ q, m.inRect q → cellSize (m1.tiles q) ≤ cellSize (m.tiles q) := by
    intro q _
    by_cases hqp : q = p
    · subst hqp
      exact hle
    · rw [hframe q hqp]
  refine ⟨measureM_le_of_pointwise hw hh hptle,
    fun hrs => measureM_lt_of_pointwise hw hh hptle p hp (hlt hrs),
    superCount_le_of_pointwise hw hh ?_⟩
  intro q _ hsq
  by_cases hqp : q = p
  · subst hqp
    exact hsup hsq
  · rw [hframe q hqp] at hsq
    exact hsq

theorem propagate_total : ∀ (k : Nat) (m : TileMap) (queue : List Position) (flag : Bool),
    (∀ q, m.inRect q → (m.tiles q).isSome = true) →
    (∀ q ∈ queue, m.inRect q) →
    5 * m.measureM + queue.length < k →
    ∃ m2 flag2, TileMap.propagate k m queue flag = some (m2, flag2) ∧
      m2.width = m.width ∧ m2.height = m.height ∧ m2.rules = m.rules ∧
      (∀ q, m2.inRect q → (m2.tiles q).isSome = true) ∧
      m2.superCount ≤ m.superCount := by
  intro k
  induction k with
  | zero =>
    intro m queue flag _ _ hlt
    exact absurd hlt (by omega)
  | succ k ih =>
    intro m queue flag hpres hq hlt
    cases queue with
    | nil => exact ⟨m, flag, rfl, rfl, rfl, rfl, hpres, le_refl _⟩
    | cons p rest =>
      have hpin : m.inRect p := hq p (List.mem_cons_self p rest)
      obtain ⟨⟨m1, ret⟩, hup⟩ := update_cell_isSome (hpres p hpin)
      obtain ⟨hw, hh, hr, hframe, _, _, _, hsome1, hlret⟩ := update_cell_step hup
      obtain ⟨hmle, hmlt, hscle⟩ := update_cell_measures hup hpin
      have hinR : ∀ q, m1.inRect q ↔ m.inRect q := by
        intro q
        unfold TileMap.inRect
        rw [hw, hh]
      have hpres1 : ∀ q, m1.inRect q → (m1.tiles q).isSome = true := by
        intro q hq1
        by_cases hqp : q = p
        · subst hqp
          exact hsome1
        · rw [hframe q hqp]
          exact hpres q ((hinR q).mp hq1)
      cases ret with
      | none =>
        have hq1 : ∀ q ∈ rest, m1.inRect q :=
          fun q hqr => (hinR q).mpr (hq q (List.mem_cons_of_mem p hqr))
        have hlt1 : 5 * m1.measureM + rest.length < k := by
          have hlen : (p :: rest).length = rest.length + 1 := rfl
          omega
        obtain ⟨m2, f2, hprop, hw2, hh2, hr2, hpres2, hsc2⟩ :=
          ih m1 rest (flag || contradictionCell (m1.tiles p)) hpres1 hq1 hlt1
        refine ⟨m2, f2, ?_, by rw [hw2, hw], by rw [hh2, hh], by rw [hr2, hr], hpres2,
          le_trans hsc2 hscle⟩
        show TileMap.propagate (k + 1) m (p :: rest) flag = some (m2, f2)
        unfold TileMap.propagate
        rw [hup]
        exact hprop
      | some l =>
        obtain ⟨hlen4, hlin⟩ := hlret l rfl
        have hq1 : ∀ q ∈ rest ++ l, m1.inRect q := by
          intro q hqm
          rcases List.mem_append.mp hqm with hql | hql
          · exact (hinR q).mpr (hq q (List.mem_cons_of_mem p hql))
          · exact (hinR q).mpr (hlin q hql)
        have hmstrict : m1.measureM < m.measureM := hmlt rfl
        have hlt1 : 5 * m1.measureM + (rest ++ l).length < k := by
          rw [List.length_append]
          have hlen : (p :: rest).length = rest.length + 1 := rfl
          omega
        obtain ⟨m2, f2, hprop, hw2, hh2, hr2, hpres2, hsc2⟩ :=
          ih m1 (rest ++ l) (flag || contradictionCell (m1.tiles p)) hpres1 hq1 hlt1
        refine ⟨m2, f2, ?_, by rw [hw2, hw], by rw [hh2, hh], by rw [hr2, hr], hpres2,
          le_trans hsc2 hscle⟩
        show TileMap.propagate (k + 1) m (p :: rest) flag = some (m2, f2)
        unfold TileMap.propagate
        rw [hup]
        exact hprop

theorem fleStep_mem (m : TileMap) (acc : List Position × Int) (p q : Position)
    (hq : q ∈ (m.fleStep acc p).1) :
    q ∈ acc.1 ∨ (q = p ∧ ∃ s, m.tiles p = some (Cell.Superposition s)) := by
  unfold TileMap.fleStep at hq
  rcases hm : m.tiles p with _ | c
  · rw [hm] at hq
    exact Or.inl hq
  rcases c with t | types
  · rw [hm] at hq
    exact Or.inl hq
  · rw [hm] at hq
    dsimp only at hq
    split_ifs at hq with h1 h2
    · exact Or.inr ⟨List.mem_singleton.mp hq, types, rfl⟩
    · rcases List.mem_append.mp hq with h | h
      · exact Or.inl h
      · exact Or.inr ⟨List.mem_singleton.mp h, types, rfl⟩
    · exact Or.inl hq

theorem foldl_fleStep_mem (m : TileMap) :
    ∀ (l : List Position) (acc : List Position × Int) (q : Position),
      q ∈ (l.foldl m.fleStep acc).1 →
      q ∈ acc.1 ∨ (q ∈ l ∧ ∃ s, m.tiles q = some (Cell.Superposition s)) := by
  intro l
  induction l with
  | nil =>
    intro acc q hq
    exact Or.inl hq
  | cons p l ih =>
    intro acc q hq
    rcases ih (m.fleStep acc p) q hq with h | ⟨hl, hs⟩
    · rcases fleStep_mem m acc p q h with h' | ⟨rfl, hs⟩
      · exact Or.inl h'
      · exact Or.inr ⟨List.mem_cons_self q l, hs⟩
    · exact Or.inr ⟨List.mem_cons_of_mem p hl, hs⟩

theorem flePass_mem (m : TileMap) (p : Position) (hp : p ∈ m.flePass.1) :
    m.inRect p ∧ ∃ s, m.tiles p = some (Cell.Superposition s) := by
  unfold TileMap.flePass at hp
  rcases foldl_fleStep_mem m _ _ p hp with h | ⟨hl, hs⟩
  · exact absurd h (List.not_mem_nil p)
  · exact ⟨mem_rectPositions.mp hl, hs⟩

theorem find_lowest_entropy_mem {m : TileMap} {r : Nat} {p : Position}
    (h : m.find_lowest_entropy r = some p) : p ∈ m.flePass.1 := by
  unfold TileMap.find_lowest_entropy at h
  split at h
  · exact absurd h (by simp)
  · rename_i hne
    injection h with h'
    subst h'
    have hlen : 0 < m.flePass.1.length := by
      rcases hl : m.flePass.1 with _ | ⟨a, l⟩
      · rw [hl] at hne
        simp at hne
      · simp [hl]
    have hidx : r % m.flePass.1.length < m.flePass.1.length := Nat.mod_lt _ hlen
    rw [List.getD_eq_getElem?_getD, List.getElem?_eq_getElem hidx]
    exact List.getElem_mem hidx

theorem find_lowest_entropy_some {m : TileMap} {r : Nat} {p : Position}
    (h : m.find_lowest_entropy r = some p) :
    m.inRect p ∧ ∃ s, m.tiles p = some (Cell.Superposition s) :=
  flePass_mem m p (find_lowest_entropy_mem h)

theorem collapse_cases (m : TileMap) (r1 r2 : Nat) :
    (m.collapse_to_random_type r1 r2 = some none ∧ m.flePass.1 = []) ∨
    (∃ p m1, m.collapse_to_random_type r1 r2 = some (some (p, m1)) ∧
      m.inRect p ∧ m1.width = m.width ∧ m1.height = m.height ∧ m1.rules = m.rules ∧
      (∀ q, q ≠ p → m1.tiles q = m.tiles q) ∧ (∃ t, m1.tiles p = some (Cell.Collapsed t)) ∧
      m1.measureM ≤ m.measureM ∧ m1.superCount + 1 = m.superCount) := by
  unfold TileMap.collapse_to_random_type
  rcases hf : m.find_lowest_entropy r1 with _ | p
  · left
    refine ⟨rfl, ?_⟩
    unfold TileMap.find_lowest_entropy at hf
    split at hf
    · rename_i hemp
      exact List.isEmpty_iff.mp hemp
    · exact absurd hf (by simp)
  · right
    obtain ⟨hpin, s, hps⟩ := find_lowest_entropy_some hf
    dsimp only
    rw [hps]
    dsimp only
    refine ⟨p, _, rfl, hpin, rfl, rfl, rfl, ?_,
      ⟨m.rules.random_tile_from_set s r2, ?_⟩, ?_, ?_⟩
    · intro q hq
      simp [TileMap.insertTile, hq]
    · simp [TileMap.insertTile]
    · refine measureM_le_of_pointwise rfl rfl ?_
      intro q _
      by_cases hqp : q = p
      · subst hqp
        rw [hps]
        simp [TileMap.insertTile, cellSize]
      · simp [TileMap.insertTile, hqp]
    · have hrect : (m.insertTile p (Cell.Collapsed
          (m.rules.random_tile_from_set s r2))).rectFinset = m.rectFinset := rfl
      have hpmem : p ∈ m.rectFinset.filter (fun q => isSuperCell (m.tiles q) = true) :=
        Finset.mem_filter.mpr ⟨mem_rectFinset.mpr hpin, by rw [hps]; rfl⟩
      have hfilter : (m.insertTile p (Cell.Collapsed
            (m.rules.random_tile_from_set s r2))).rectFinset.filter
            (fun q => isSuperCell ((m.insertTile p (Cell.Collapsed
              (m.rules.random_tile_from_set s r2))).tiles q) = true)
          = (m.rectFinset.filter (fun q => isSuperCell (m.tiles q) = true)).erase p := by
        rw [hrect]
        ext q
        rw [Finset.mem_erase, Finset.mem_filter, Finset.mem_filter]
        constructor
        · rintro ⟨hqr, hsq⟩
          by_cases hqp : q = p
          · subst hqp
            rw [show (m.insertTile q (Cell.Collapsed
                (m.rules.random_tile_from_set s r2))).tiles q
              = some (Cell.Collapsed (m.rules.random_tile_from_set s r2)) from
                by simp [TileMap.insertTile]] at hsq
            exact absurd hsq (by simp [isSuperCell])
          · rw [show (m.insertTile p (Cell.Collapsed
                (m.rules.random_tile_from_set s r2))).tiles q = m.tiles q from
                by simp [TileMap.insertTile, hqp]] at hsq
            exact ⟨hqp, hqr, hsq⟩
        · rintro ⟨hqp, hqr, hsq⟩
          refine ⟨hqr, ?_⟩
          rw [show (m.insertTile p (Cell.Collapsed
              (m.rules.random_tile_from_set s r2))).tiles q = m.tiles q from
              by simp [TileMap.insertTile, hqp]]
          exact hsq
      show (Finset.filter _ _).card + 1 = (Finset.filter _ _).card
      rw [hfilter, Finset.card_erase_of_mem hpmem]
      have hpos : 0 < (m.rectFinset.filter (fun q => isSuperCell (m.tiles q) = true)).card :=
        Finset.card_pos.mpr ⟨p, hpmem⟩
      omega

theorem update_and_propagate_total (m : TileMap) (r1 r2 : Nat)
    (hpres : ∀ q, m.inRect q → (m.tiles q).isSome = true) :
    m.update_and_propagate (5 * m.measureM + 6) r1 r2 = some (MapStatus.Finished, m, false) ∨
    (∃ m2 flg, m.update_and_propagate (5 * m.measureM + 6) r1 r2
        = some (MapStatus.Generating, m2, flg) ∧
      (∀ q, m2.inRect q → (m2.tiles q).isSome = true) ∧ m2.superCount < m.superCount) := by
  rcases collapse_cases m r1 r2 with ⟨hc, _⟩ |
    ⟨p, m1, hc, hpin, hw, hh, hr, hframe, ⟨t, hpt⟩, hm, hsc⟩
  · left
    unfold TileMap.update_and_propagate
    rw [hc]
  · right
    have hinR : ∀ q, m1.inRect q ↔ m.inRect q := by
      intro q
      unfold TileMap.inRect
      rw [hw, hh]
    have hpres1 : ∀ q, m1.inRect q → (m1.tiles q).isSome = true := by
      intro q hq1
      by_cases hqp : q = p
      · subst hqp
        rw [hpt]
        rfl
      · rw [hframe q hqp]
        exact hpres q ((hinR q).mp hq1)
    have hqin : ∀ q ∈ (m1.get_all_neighbours p).map (fun x => x.2.1), m1.inRect q := by
      intro q hq
      obtain ⟨x, hx, rfl⟩ := List.mem_map.mp hq
      exact (get_all_neighbours_mem hx).1
    have hlen : ((m1.get_all_neighbours p).map (fun x => x.2.1)).length ≤ 4 := by
      rw [List.length_map]
      exact length_get_all_neighbours_le m1 p
    have hfuel : 5 * m1.measureM + ((m1.get_all_neighbours p).map (fun x => x.2.1)).length
        < 5 * m.measureM + 6 := by omega
    obtain ⟨m2, f2, hprop, _, _, _, hpres2, hsc2⟩ :=
      propagate_total _ m1 _ false hpres1 hqin hfuel
    refine ⟨m2, f2, ?_, hpres2, by omega⟩
    unfold TileMap.update_and_propagate
    rw [hc]
    dsimp only
    rw [hprop]

theorem genLoop_total :
    ∀ (fuel : Nat) (m : TileMap) (rng : Nat → Nat × Nat) (i : Nat) (flag : Bool),
      (∀ q, m.inRect q → (m.tiles q).isSome = true) →
      m.superCount < fuel →
      ∃ res, TileMap.genLoop fuel m rng i flag = some res := by
  intro fuel
  induction fuel with
  | zero =>
    intro m rng i flag _ hcnt
    exact absurd hcnt (by omega)
  | succ fuel ih =>
    intro m rng i flag hpres hcnt
    rcases update_and_propagate_total m (rng i).1 (rng i).2 hpres with hfin |
      ⟨m2, flg, hgen, hpres2, hlt⟩
    · refine ⟨(m, flag || false), ?_⟩
      unfold TileMap.genLoop
      rw [hfin]
    · obtain ⟨res, hres⟩ := ih m2 rng (i + 1) (flag || flg) hpres2 (by omega)
      refine ⟨res, ?_⟩
      unfold TileMap.genLoop
      rw [hgen]
      exact hres

/-! ### Claim C2 -/

/-- Claim C2: for every rule table and every grid, `generate` terminates:
with the fuel bounds baked into the embedding — `superCount + 1` outer
iterations, and `5 * measureM + 6` steps for each inner propagation
queue — the whole run completes (`isSome`), because `update_cell` returns
neighbour positions only when it strictly removed a candidate (so
`5 * measureM + queue length` strictly decreases at every inner step) and
every `Generating` iteration of the outer loop strictly decreases the
number of superposition cells. -/
theorem C2_generate_terminates (m : TileMap) (rng : Nat → Nat × Nat) :
    (m.generate rng).isSome = true := by
  have hpres : ∀ q, m.init_tiles.inRect q → (m.init_tiles.tiles q).isSome = true := by
    intro q hq
    have hq' : 0 ≤ q.x ∧ q.x < m.width ∧ 0 ≤ q.y ∧ q.y < m.height := hq
    show (if 0 ≤ q.x ∧ q.x < m.width ∧ 0 ≤ q.y ∧ q.y < m.height then
        some (Cell.new m.rules.tile_types)
      else m.tiles q).isSome = true
    rw [if_pos hq']
    rfl
  obtain ⟨res, hres⟩ :=
    genLoop_total (m.init_tiles.superCount + 1) m.init_tiles rng 0 false hpres (by omega)
  unfold TileMap.generate
  dsimp only
  rw [hres]
  rfl

/-! ### The entropy scan -/

theorem entropyBounded_spec {m : TileMap} (hb : m.entropyBounded = true) :
    ∀ p ∈ rectPositions m.width m.height, ∀ s,
      m.tiles p = some (Cell.Superposition s) → m.calculate_entropy s ≤ intMax := by
  intro p hp s hs
  have h := List.all_eq_true.mp hb p hp
  rw [hs] at h
  exact of_decide_eq_true h

theorem foldl_fleStep_invariant (m : TileMap)
    (hb : ∀ p ∈ rectPositions m.width m.height, ∀ s,
      m.tiles p = some (Cell.Superposition s) → m.calculate_entropy s ≤ intMax) :
    ∀ (l : List Position) (acc : List Position × Int),
      (∀ p ∈ l, p ∈ rectPositions m.width m.height) →
      (∀ p ∈ acc.1, ∃ s, m.tiles p = some (Cell.Superposition s) ∧
        m.calculate_entropy s = acc.2) →
      acc.2 ≤ intMax →
      (acc.1 = [] → acc.2 = intMax) →
      ((∀ p ∈ (l.foldl m.fleStep acc).1, ∃ s, m.tiles p = some (Cell.Superposition s) ∧
          m.calculate_entropy s = (l.foldl m.fleStep acc).2) ∧
        (l.foldl m.fleStep acc).2 ≤ intMax ∧
        ((l.foldl m.fleStep acc).1 = [] → (l.foldl m.fleStep acc).2 = intMax) ∧
        (∀ q ∈ l, ∀ s, m.tiles q = some (Cell.Superposition s) →
          (l.foldl m.fleStep acc).2 ≤ m.calculate_entropy s) ∧
        (l.foldl m.fleStep acc).2 ≤ acc.2 ∧
        (acc.1 ≠ [] → (l.foldl m.fleStep acc).1 ≠ []) ∧
        (∀ q ∈ l, isSuperCell (m.tiles q) = true → (l.foldl m.fleStep acc).1 ≠ [])) := by
  intro l
  induction l with
  | nil =>
    intro acc _ hinv1 hinv2 hinv3
    refine ⟨hinv1, hinv2, hinv3, ?_, le_refl _, fun h => h, ?_⟩
    · intro q hq
      exact absurd hq (List.not_mem_nil q)
    · intro q hq
      exact absurd hq (List.not_mem_nil q)
  | cons p l ih =>
    intro acc hl hinv1 hinv2 hinv3
    have hlrest : ∀ q ∈ l, q ∈ rectPositions m.width m.height :=
      fun q hq => hl q (List.mem_cons_of_mem p hq)
    rw [List.foldl_cons]
    rcases hm : m.tiles p with _ | c
    · have hstep : m.fleStep acc p = acc := by
        unfold TileMap.fleStep
        rw [hm]
      rw [hstep]
      obtain ⟨c1, c2, c3, c4, c5, c6, c7⟩ := ih acc hlrest hinv1 hinv2 hinv3
      refine ⟨c1, c2, c3, ?_, c5, c6, ?_⟩
      · intro q hq s hs
        rcases List.mem_cons.mp hq with rfl | hq'
        · rw [hm] at hs
          exact absurd hs (by simp)
        · exact c4 q hq' s hs
      · intro q hq hsq
        rcases List.mem_cons.mp hq with rfl | hq'
        · rw [hm] at hsq
          exact absurd hsq (by simp [isSuperCell])
        · exact c7 q hq' hsq
    rcases c with t | types
    · have hstep : m.fleStep acc p = acc := by
        unfold TileMap.fleStep
        rw [hm]
      rw [hstep]
      obtain ⟨c1, c2, c3, c4, c5, c6, c7⟩ := ih acc hlrest hinv1 hinv2 hinv3
      refine ⟨c1, c2, c3, ?_, c5, c6, ?_⟩
      · intro q hq s hs
        rcases List.mem_cons.mp hq with rfl | hq'
        · rw [hm] at hs
          exact absurd hs (by simp)
        · exact c4 q hq' s hs
      · intro q hq hsq
        rcases List.mem_cons.mp hq with rfl | hq'
        · rw [hm] at hsq
          exact absurd hsq (by simp [isSuperCell])
        · exact c7 q hq' hsq
    · have hE : m.calculate_entropy types ≤ intMax :=
        hb p (hl p (List.mem_cons_self p l)) types hm
      have hstep : m.fleStep acc p =
          (if m.calculate_entropy types < acc.2 then ([p], m.calculate_entropy types)
          else if m.calculate_entropy types = acc.2 then (acc.1 ++ [p], acc.2)
          else acc) := by
        unfold TileMap.fleStep
        rw [hm]
      rw [hstep]
      by_cases h1 : m.calculate_entropy types < acc.2
      · rw [if_pos h1]
        have hinv1' : ∀ q ∈ ([p], m.calculate_entropy types).1,
            ∃ s, m.tiles q = some (Cell.Superposition s) ∧
              m.calculate_entropy s = ([p], m.calculate_entropy types).2 := by
          intro q hq
          rw [List.mem_singleton.mp hq]
          exact ⟨types, hm, rfl⟩
        obtain ⟨c1, c2, c3, c4, c5, c6, c7⟩ :=
          ih ([p], m.calculate_entropy types) hlrest hinv1' hE (by simp)
        refine ⟨c1, c2, c3, ?_, le_trans c5 (le_of_lt h1), fun _ => c6 (by simp), ?_⟩
        · intro q hq s hs
          rcases List.mem_cons.mp hq with rfl | hq'
          · rw [hm] at hs
            injection hs with hs'
            injection hs' with hs''
            rw [← hs'']
            exact c5
          · exact c4 q hq' s hs
        · intro q hq hsq
          rcases List.mem_cons.mp hq with rfl | _
          · exact c6 (by simp)
          · exact c6 (by simp)
      · rw [if_neg h1]
        by_cases h2 : m.calculate_entropy types = acc.2
        · rw [if_pos h2]
          have hinv1' : ∀ q ∈ (acc.1 ++ [p], acc.2).1,
              ∃ s, m.tiles q = some (Cell.Superposition s) ∧
                m.calculate_entropy s = (acc.1 ++ [p], acc.2).2 := by
            intro q hq
            rcases List.mem_append.mp hq with hq' | hq'
            · exact hinv1 q hq'
            · rw [List.mem_singleton.mp hq']
              exact ⟨types, hm, h2⟩
          obtain ⟨c1, c2, c3, c4, c5, c6, c7⟩ :=
            ih (acc.1 ++ [p], acc.2) hlrest hinv1' hinv2 (by simp)
          refine ⟨c1, c2, c3, ?_, c5, fun _ => c6 (by simp), ?_⟩
          · intro q hq s hs
            rcases List.mem_cons.mp hq with rfl | hq'
            · rw [hm] at hs
              injection hs with hs'
              injection hs' with hs''
              rw [← hs'', h2]
              exact c5
            · exact c4 q hq' s hs
          · intro q hq hsq
            rcases List.mem_cons.mp hq with rfl | _
            · exact c6 (by simp)
            · exact c6 (by simp)
        · rw [if_neg h2]
          have hacc : acc.1 ≠ [] := by
            intro hnil
            rw [hinv3 hnil] at h1 h2
            rcases lt_or_eq_of_le hE with h | h
            · exact h1 h
            · exact h2 h
          obtain ⟨c1, c2, c3, c4, c5, c6, c7⟩ := ih acc hlrest hinv1 hinv2 hinv3
          refine ⟨c1, c2, c3, ?_, c5, c6, ?_⟩
          · intro q hq s hs
            rcases List.mem_cons.mp hq with rfl | hq'
            · rw [hm] at hs
              injection hs with hs'
              injection hs' with hs''
              rw [← hs'']
              have : acc.2 ≤ m.calculate_entropy types := by omega
              exact le_trans c5 this
            · exact c4 q hq' s hs
          · intro q hq _
            exact c6 hacc

theorem flePass_invariant (m : TileMap) (hb : m.entropyBounded = true) :
    (∀ p ∈ m.flePass.1, ∃ s, m.tiles p = some (Cell.Superposition s) ∧
      m.calculate_entropy s = m.flePass.2) ∧
    (∀ q, m.inRect q → ∀ s, m.tiles q = some (Cell.Superposition s) →
      m.flePass.2 ≤ m.calculate_entropy s) ∧
    (m.flePass.1 = [] ↔ m.hasSuper = false) := by
  obtain ⟨c1, _, _, c4, _, _, c7⟩ :=
    foldl_fleStep_invariant m (entropyBounded_spec hb)
      (rectPositions m.width m.height) ([], intMax)
      (fun p hp => hp) (fun p hp => absurd hp (List.not_mem_nil p)) (le_refl _) (fun _ => rfl)
  refine ⟨c1, ?_, ?_, ?_⟩
  · intro q hq s hs
    exact c4 q (mem_rectPositions.mpr hq) s hs
  · intro hnil
    rw [Bool.eq_false_iff]
    intro hsup
    obtain ⟨q, hq, hsq⟩ := List.any_eq_true.mp hsup
    exact c7 q hq hsq hnil
  · intro hns
    rcases hl : m.flePass.1 with _ | ⟨a, l⟩
    · rfl
    · have ham : a ∈ m.flePass.1 := by
        rw [hl]
        exact List.mem_cons_self a l
      obtain ⟨hain, s, has⟩ := flePass_mem m a ham
      have : m.hasSuper = true := by
        apply List.any_eq_true.mpr
        exact ⟨a, mem_rectPositions.mpr hain, by rw [has]; rfl⟩
      rw [this] at hns
      exact absurd hns (by simp)

/-! ### Claim C6 -/

/-- Claim C6: `update_and_propagate` reports `Finished` (leaving the map
untouched) if and only if at entry no cell of the grid is a superposition;
otherwise it collapses exactly one minimum-entropy superposition cell to a
weighted random draw from its candidate set, seeds the FIFO queue with
that cell's neighbour positions, propagates until the queue drains and
reports `Generating`.  Stated under the no-entropy-overflow side condition
`entropyBounded` (the `Int` embedding of the `i32` sums). -/
theorem C6_update_and_propagate_contract (m : TileMap) (fuel : Nat) (r1 r2 : Nat)
    (hb : m.entropyBounded = true) :
    ((∃ x f, m.update_and_propagate fuel r1 r2 = some (MapStatus.Finished, x, f))
      ↔ m.hasSuper = false) ∧
    ((∃ x f, m.update_and_propagate fuel r1 r2 = some (MapStatus.Finished, x, f)) →
      m.update_and_propagate fuel r1 r2 = some (MapStatus.Finished, m, false)) ∧
    (m.hasSuper = true →
      ∃ p sp, m.tiles p = some (Cell.Superposition sp) ∧ m.inRect p ∧
        (∀ q, m.inRect q → ∀ sq, m.tiles q = some (Cell.Superposition sq) →
          m.calculate_entropy sp ≤ m.calculate_entropy sq) ∧
        m.update_and_propagate fuel r1 r2
          = (TileMap.propagate fuel
              (m.insertTile p (Cell.Collapsed (m.rules.random_tile_from_set sp r2)))
              ((TileMap.get_all_neighbours
              (m.insertTile p (Cell.Collapsed (m.rules.random_tile_from_set sp r2))) p).map (fun x => x.2.1)) false).map
              (fun z => (MapStatus.Generating, z.1, z.2))) := by
  obtain ⟨hmem, hmin, hempty⟩ := flePass_invariant m hb
  have hgenbranch : m.hasSuper = true →
      ∃ p sp, m.tiles p = some (Cell.Superposition sp) ∧ m.inRect p ∧
        (∀ q, m.inRect q → ∀ sq, m.tiles q = some (Cell.Superposition sq) →
          m.calculate_entropy sp ≤ m.calculate_entropy sq) ∧
        m.update_and_propagate fuel r1 r2
          = (TileMap.propagate fuel
              (m.insertTile p (Cell.Collapsed (m.rules.random_tile_from_set sp r2)))
              ((TileMap.get_all_neighbours
              (m.insertTile p (Cell.Collapsed (m.rules.random_tile_from_set sp r2))) p).map (fun x => x.2.1)) false).map
              (fun z => (MapStatus.Generating, z.1, z.2)) := by
    intro hsup
    have hne : m.flePass.1 ≠ [] := by
      intro h
      rw [hempty.mp h] at hsup
      exact absurd hsup (by simp)
    have hfind : m.find_lowest_entropy r1
        = some (m.flePass.1.getD (r1 % m.flePass.1.length) ⟨0, 0⟩) := by
      unfold TileMap.find_lowest_entropy
      rw [if_neg (by simpa using hne)]
    have hpmem := find_lowest_entropy_mem hfind
    obtain ⟨sp, hps, hent⟩ := hmem _ hpmem
    obtain ⟨hpin, _⟩ := flePass_mem m _ hpmem
    refine ⟨_, sp, hps, hpin, ?_, ?_⟩
    · intro q hq sq hsq
      rw [hent]
      exact hmin q hq sq hsq
    · unfold TileMap.update_and_propagate TileMap.collapse_to_random_type
      rw [hfind]
      dsimp only
      rw [hps]
      dsimp only
      cases hprop : TileMap.propagate fuel
          (m.insertTile (m.flePass.1.getD (r1 % m.flePass.1.length) ⟨0, 0⟩)
            (Cell.Collapsed (m.rules.random_tile_from_set sp r2)))
          ((TileMap.get_all_neighbours
              (m.insertTile (m.flePass.1.getD (r1 % m.flePass.1.length) ⟨0, 0⟩)
                (Cell.Collapsed (m.rules.random_tile_from_set sp r2)))
              (m.flePass.1.getD (r1 % m.flePass.1.length) ⟨0, 0⟩)).map
            (fun x => x.2.1)) false
      · rfl
      · rfl
  have hfinbranch : m.hasSuper = false →
      m.update_and_propagate fuel r1 r2 = some (MapStatus.Finished, m, false) := by
    intro hns
    have h1 : m.flePass.1 = [] := hempty.mpr hns
    unfold TileMap.update_and_propagate TileMap.collapse_to_random_type
      TileMap.find_lowest_entropy
    rw [h1]
    rfl
  refine ⟨⟨?_, ?_⟩, ?_, hgenbranch⟩
  · rintro ⟨x, f, hx⟩
    cases hsup : m.hasSuper
    · rfl
    · obtain ⟨p, sp, _, _, _, heq⟩ := hgenbranch hsup
      rw [heq] at hx
      cases hprop : TileMap.propagate fuel
          (m.insertTile p (Cell.Collapsed (m.rules.random_tile_from_set sp r2)))
          ((TileMap.get_all_neighbours
              (m.insertTile p (Cell.Collapsed (m.rules.random_tile_from_set sp r2))) p).map (fun x => x.2.1)) false with
      | none =>
        rw [hprop] at hx
        exact absurd hx (by simp)
      | some z =>
        rw [hprop] at hx
        simp only [Option.map_some'] at hx
        injection hx with hx'
        have : MapStatus.Generating = MapStatus.Finished := congrArg Prod.fst hx'
        exact absurd this (by simp)
  · intro hns
    exact ⟨m, false, hfinbranch hns⟩
  · rintro ⟨x, f, hx⟩
    cases hsup : m.hasSuper
    · exact hfinbranch hsup
    · obtain ⟨p, sp, _, _, _, heq⟩ := hgenbranch hsup
      rw [heq] at hx
      cases hprop : TileMap.propagate fuel
          (m.insertTile p (Cell.Collapsed (m.rules.random_tile_from_set sp r2)))
          ((TileMap.get_all_neighbours
              (m.insertTile p (Cell.Collapsed (m.rules.random_tile_from_set sp r2))) p).map (fun x => x.2.1)) false with
      | none =>
        rw [hprop] at hx
        exact absurd hx (by simp)
      | some z =>
        rw [hprop] at hx
        simp only [Option.map_some'] at hx
        injection hx with hx'
        have : MapStatus.Generating = MapStatus.Finished := congrArg Prod.fst hx'
        exact absurd this (by simp)

/-- Witness for `C6_update_and_propagate_contract` on the freshly
initialized 2×1 map with superpositions remaining. -/
theorem C6_update_and_propagate_contract_witness :
    ∃ p sp, freshMap.tiles p = some (Cell.Superposition sp) ∧ freshMap.inRect p ∧
      (∀ q, freshMap.inRect q → ∀ sq, freshMap.tiles q = some (Cell.Superposition sq) →
        freshMap.calculate_entropy sp ≤ freshMap.calculate_entropy sq) ∧
      freshMap.update_and_propagate 16 0 0
        = (TileMap.propagate 16
            (freshMap.insertTile p (Cell.Collapsed (freshMap.rules.random_tile_from_set sp 0)))
            ((TileMap.get_all_neighbours
              (freshMap.insertTile p
                (Cell.Collapsed (freshMap.rules.random_tile_from_set sp 0))) p).map (fun x => x.2.1)) false).map
            (fun z => (MapStatus.Generating, z.1, z.2)) :=
  (C6_update_and_propagate_contract freshMap 16 0 0 (by decide)).2.2 (by decide)

end Wfc
